import Mathlib

/-!
Verification of the Change-Graph Coordination Engine against its
natural-language specification.

The development shallowly embeds the relevant parts of the source:

* the action scheduler getter `proposedActions`
  (web store for pending actions);
* the graph store of components and edges, its optimistic mutations
  (`DELETE_EDGE`, `RESTORE_EDGE`, `DELETE_COMPONENT`,
  `CREATE_COMPONENT_CONNECTION`) and their rollback closures;
* the reachability getter `getDependentComponents`;
* the sequential bulk operations `DELETE_COMPONENTS` /
  `RESTORE_COMPONENTS` as remote-call traces;
* the SQL procedure `status_update_create_v1`.

JavaScript objects that are captured by reference inside rollback
closures (edge objects) are modelled with an explicit heap of
addresses, so that the aliasing behaviour of the source is preserved.
A JavaScript TypeError (field access on `undefined`) is modelled as
`Except.error ()`.
-/

/-! ## Association lists (JavaScript `Record<K, V>` objects) -/

/-- Lookup of a key in an association list (first match). -/
def lookupA {κ α : Type} [DecidableEq κ] : List (κ × α) → κ → Option α
  | [], _ => none
  | (k, v) :: rest, key => if k = key then some v else lookupA rest key

/-- Assignment `obj[key] = v`: update the existing entry in place, or
append a new entry (JavaScript object key insertion order). -/
def setA {κ α : Type} [DecidableEq κ] : List (κ × α) → κ → α → List (κ × α)
  | [], key, v => [(key, v)]
  | (k, w) :: rest, key, v =>
    if k = key then (key, v) :: rest else (k, w) :: setA rest key v

/-- Key removal `delete obj[key]`. -/
def eraseA {κ α : Type} [DecidableEq κ] : List (κ × α) → κ → List (κ × α)
  | [], _ => []
  | (k, w) :: rest, key =>
    if k = key then eraseA rest key else (k, w) :: eraseA rest key

/-! ## Action scheduler (`proposedActions` getter of the actions store)

The source iterates `while (_.keys(graph).length)`, each round sorting
the entries by id, appending every action with an empty `parents` list
to the output, then deleting those entries from the (shared, mutated
in place) graph object and calling
`childAction.parents.splice(index)` at the index of the removed id.
`Array.splice` with a single argument removes every element from that
index on, which the embedding reproduces in `stripParents`.  The
unbounded `while` loop is embedded with explicit fuel; `none` means
the fuel was exhausted, i.e. the source loop has not terminated within
that many iterations. -/

/-- Lexicographic comparison of char lists, used to model the id sort
`sortedEntries.sort(([a], [b]) => a.localeCompare(b))`. -/
def charsLe : List Char → List Char → Bool
  | [], _ => true
  | _ :: _, [] => false
  | c :: cs, d :: ds => if c = d then charsLe cs ds else decide (c < d)

/-- String comparison for the entry sort. -/
def strLe (a b : String) : Bool := charsLe a.data b.data

/-- An `ActionInstance` of the actions store. -/
structure ActionInstance where
  id : String
  actionPrototypeId : String
  name : String
  componentId : String
  parents : List String
  deriving DecidableEq

/-- The `ActionId → Action` record owned by the change-set. -/
abbrev ActionGraph := List (String × ActionInstance)

/-- Insertion into an id-sorted entry list. -/
def insertByKey (kv : String × ActionInstance) :
    ActionGraph → ActionGraph
  | [] => [kv]
  | kv2 :: rest =>
    if strLe kv.1 kv2.1 then kv :: kv2 :: rest else kv2 :: insertByKey kv rest

/-- The per-iteration sort of `_.entries(graph)` by id. -/
def sortEntries (l : ActionGraph) : ActionGraph :=
  l.foldr insertByKey []

/-- One pass over the sorted entries: push every action whose
`parents` list is empty onto the output and record its id in
`removeIds`. -/
def collectReady (sorted : ActionGraph) (acc : List ActionInstance) :
    List ActionInstance × List String :=
  sorted.foldl
    (fun st kv =>
      if kv.2.parents = [] then (st.1 ++ [kv.2], st.2 ++ [kv.1]) else st)
    (acc, [])

/-- The effect of `childAction.parents.splice(index)` where `index` is
`findIndex(parentId === removeId)`: when the id occurs, every element
from its position on is removed (single-argument `splice` truncates to
the end); otherwise the list is unchanged. -/
def stripParents (removeId : String) (ps : List String) : List String :=
  match ps.findIdx? (fun p => p == removeId) with
  | some i => ps.take i
  | none => ps

/-- `delete graph[removeId]` followed by the strip of `removeId` from
the parents of every remaining action. -/
def removeOne (g : ActionGraph) (removeId : String) : ActionGraph :=
  (g.filter (fun kv => !(decide (kv.1 = removeId)))).map
    (fun kv => (kv.1, { kv.2 with parents := stripParents removeId kv.2.parents }))

/-- The removal loop `for (const removeId of removeIds)`. -/
def removeAll (g : ActionGraph) (removeIds : List String) : ActionGraph :=
  removeIds.foldl removeOne g

/-- The `while (_.keys(graph).length)` loop, with fuel.  On exit it
returns the accumulated output together with the final state of the
shared graph object (the getter mutates the change-set's action record
in place, so the final graph state is observable). -/
def proposedActionsLoop :
    Nat → ActionGraph → List ActionInstance →
    Option (List ActionInstance × ActionGraph)
  | 0, g, acc => if g.isEmpty then some (acc, g) else none
  | n + 1, g, acc =>
    if g.isEmpty then some (acc, g)
    else
      let sorted := sortEntries g
      let st := collectReady sorted acc
      proposedActionsLoop n (removeAll g st.2) st.1

/-- The `proposedActions` getter: runs the loop with enough fuel for
any terminating execution (each productive iteration removes at least
one entry, so `g.length + 1` rounds suffice; `none` therefore means
the source loops forever on this input). -/
def proposedActions (g : ActionGraph) :
    Option (List ActionInstance × ActionGraph) :=
  proposedActionsLoop (g.length + 1) g []

/-- Index of an id in an order list (length of the list if absent). -/
def idxOf (l : List String) (x : String) : Nat :=
  l.findIdx (fun y => y == x)

/-- `order` is a topological linearization of the action graph `g`:
it covers exactly the keys of `g` and places every action after each
of its parents.  An action graph admitting such an order is acyclic. -/
def isTopoOrder (g : ActionGraph) (order : List String) : Bool :=
  (g.map Prod.fst).all (fun id => order.contains id) &&
  order.all (fun id => (g.map Prod.fst).contains id) &&
  g.all (fun kv => kv.2.parents.all (fun p => idxOf order p < idxOf order kv.1))

/-- The cyclic two-action graph X(parents:[Y]), Y(parents:[X]). -/
def cyclicActionGraph : ActionGraph :=
  [("x", { id := "x", actionPrototypeId := "px", name := "x", componentId := "c1",
           parents := ["y"] }),
   ("y", { id := "y", actionPrototypeId := "py", name := "y", componentId := "c2",
           parents := ["x"] })]

/-- Acyclic four-action graph a, b(parents:[a]), c(parents:[b]),
d(parents:[a, c]), on which the truncating `splice` drops the parent
`c` of `d` when `a` is removed. -/
def spliceActionGraph : ActionGraph :=
  [("a", { id := "a", actionPrototypeId := "pa", name := "a", componentId := "c1",
           parents := [] }),
   ("b", { id := "b", actionPrototypeId := "pb", name := "b", componentId := "c2",
           parents := ["a"] }),
   ("c", { id := "c", actionPrototypeId := "pc", name := "c", componentId := "c3",
           parents := ["b"] }),
   ("d", { id := "d", actionPrototypeId := "pd", name := "d", componentId := "c4",
           parents := ["a", "c"] })]

/-- Two-action chain used as a terminating example input. -/
def chainActionGraph : ActionGraph :=
  [("p", { id := "p", actionPrototypeId := "pp", name := "p", componentId := "c1",
           parents := [] }),
   ("q", { id := "q", actionPrototypeId := "pq", name := "q", componentId := "c2",
           parents := ["p"] })]

example : (proposedActions spliceActionGraph).map
    (fun r => r.1.map ActionInstance.id) = some ["a", "b", "d", "c"] := by decide

example : proposedActions cyclicActionGraph = none := by decide

example : (proposedActions chainActionGraph).map
    (fun r => (r.1.map ActionInstance.id, r.2)) = some (["p", "q"], []) := by decide

/-! ## Graph store (components store)

Components and edges of the diagram, as held by the components store.
Edge objects are mutated in place by the optimistic mutations and are
captured by reference inside rollback closures, so they live in an
explicit heap of addresses; the `edgesById` record maps edge ids to
addresses.  Components are only ever mutated field-wise with primitive
captures, so `rawComponentsById` maps ids to values directly. -/

/-- An `ActorView` (`{ kind, label }`). -/
structure ActorView where
  kind : String
  label : String
  deriving DecidableEq

/-- `ActorAndTimestamp` as stored in `createdInfo` / `deletedInfo`. -/
structure ActorAndTimestamp where
  actor : ActorView
  timestamp : String
  deriving DecidableEq

/-- The `ChangeStatus` union of the change-set DAL. -/
inductive ChangeStatus where
  | added
  | deleted
  | modified
  | unmodified
  deriving DecidableEq

/-- An `Edge` of the components store. -/
structure Edge where
  id : String
  fromNodeId : String
  fromSocketId : String
  toNodeId : String
  toSocketId : String
  isInvisible : Option Bool
  changeStatus : Option ChangeStatus
  createdInfo : ActorAndTimestamp
  deletedInfo : Option ActorAndTimestamp
  deriving DecidableEq

/-- The fields of a `RawComponent` involved in the optimistic
mutations, plus its identities. -/
structure RawComponent where
  id : String
  nodeId : String
  displayName : String
  parentNodeId : Option String
  childNodeIds : List String
  changeStatus : ChangeStatus
  createdInfo : ActorAndTimestamp
  deletedInfo : Option ActorAndTimestamp
  deriving DecidableEq

/-- Heap address of an edge object. -/
abbrev Addr := Nat

/-- The mutable state of the components store that the optimistic
mutations touch: the edge and component records, the edge-object heap
and the current edge selection. -/
structure StoreState where
  heap : List (Addr × Edge)
  nextAddr : Addr
  edgesById : List (String × Addr)
  rawComponentsById : List (String × RawComponent)
  selectedEdgeId : Option String
  deriving DecidableEq

/-- The edge value currently reachable under an id, through the heap. -/
def edgeAt (s : StoreState) (edgeId : String) : Option Edge :=
  (lookupA s.edgesById edgeId).bind (fun addr => lookupA s.heap addr)

/-- A rollback closure returned by an optimistic mutation, as data:
the constructor records exactly the values the JavaScript closure
captures (edge objects by address, statuses by value). -/
inductive Rollback where
  | restoreEdgeRb (edgeId : String) (originalEdge : Addr)
  | deleteEdgeAddedRb (edgeId : String) (originalEdge : Addr)
  | deleteEdgeTombRb (edgeId : String) (originalStatus : Option ChangeStatus)
  | deleteComponentRb (componentId : String) (originalStatus : ChangeStatus)
  | createConnRb (tempId : String)
  deriving DecidableEq

/-- Invoking a rollback closure against the current store state.
`Except.error ()` is a thrown TypeError: the closures of
`DELETE_EDGE` (tombstone branch) and `DELETE_COMPONENT` read a field
of `this.edgesById[edgeId]` / `this.rawComponentsById[componentId]`
without an existence guard, so they throw when the entry is gone. -/
def applyRollback : Rollback → StoreState → Except Unit StoreState
  | .restoreEdgeRb edgeId addr, s =>
    .ok { s with edgesById := setA s.edgesById edgeId addr,
                 selectedEdgeId := some edgeId }
  | .deleteEdgeAddedRb edgeId addr, s =>
    .ok { s with edgesById := setA s.edgesById edgeId addr,
                 selectedEdgeId := some edgeId }
  | .deleteEdgeTombRb edgeId originalStatus, s =>
    match lookupA s.edgesById edgeId with
    | none => .error ()
    | some addr =>
      match lookupA s.heap addr with
      | none => .error ()
      | some e =>
        let e2 := { e with changeStatus := originalStatus, deletedInfo := none }
        .ok { s with heap := setA s.heap addr e2,
                     selectedEdgeId := some edgeId }
  | .deleteComponentRb componentId originalStatus, s =>
    match lookupA s.rawComponentsById componentId with
    | none => .error ()
    | some c =>
      let c2 := { c with changeStatus := originalStatus, deletedInfo := none }
      .ok { s with rawComponentsById := setA s.rawComponentsById componentId c2 }
  | .createConnRb tempId, s =>
    .ok { s with edgesById := eraseA s.edgesById tempId }

/-- The optimistic part of `DELETE_EDGE`.  Reading
`this.edgesById[edgeId].changeStatus` throws when the edge is absent.
If the status is `added` the entry is removed outright and the closure
captures the edge object; otherwise the edge object is tombstoned in
place and the closure captures the prior status by value. -/
def DELETE_EDGE_optimistic (edgeId : String) (now : ActorAndTimestamp)
    (s : StoreState) : Except Unit (StoreState × Rollback) :=
  match lookupA s.edgesById edgeId with
  | none => .error ()
  | some addr =>
    match lookupA s.heap addr with
    | none => .error ()
    | some e =>
      if e.changeStatus = some ChangeStatus.added then
        .ok ({ s with edgesById := eraseA s.edgesById edgeId,
                      selectedEdgeId := none },
             Rollback.deleteEdgeAddedRb edgeId addr)
      else
        let e2 := { e with changeStatus := some ChangeStatus.deleted,
                           deletedInfo := some now }
        .ok ({ s with heap := setA s.heap addr e2 },
             Rollback.deleteEdgeTombRb edgeId e.changeStatus)

/-- The optimistic part of `RESTORE_EDGE`: capture
`originalEdge = this.edgesById[edgeId]` (a reference to the edge
object), delete its `deletedInfo`, set its status to `unmodified`.
The returned closure holds the address of that same object. -/
def RESTORE_EDGE_optimistic (edgeId : String) (s : StoreState) :
    Except Unit (StoreState × Rollback) :=
  match lookupA s.edgesById edgeId with
  | none => .error ()
  | some addr =>
    match lookupA s.heap addr with
    | none => .error ()
    | some e =>
      let e2 := { e with deletedInfo := none,
                         changeStatus := some ChangeStatus.unmodified }
      .ok ({ s with heap := setA s.heap addr e2 },
           Rollback.restoreEdgeRb edgeId addr)

/-- The optimistic part of `DELETE_COMPONENT`: tombstone the component
in place, capturing the prior status by value. -/
def DELETE_COMPONENT_optimistic (componentId : String)
    (now : ActorAndTimestamp) (s : StoreState) :
    Except Unit (StoreState × Rollback) :=
  match lookupA s.rawComponentsById componentId with
  | none => .error ()
  | some c =>
    let c2 := { c with changeStatus := ChangeStatus.deleted,
                       deletedInfo := some now }
    .ok ({ s with rawComponentsById := setA s.rawComponentsById componentId c2 },
         Rollback.deleteComponentRb componentId c.changeStatus)

/-- A socket endpoint of a connection. -/
structure Endpoint where
  nodeId : String
  socketId : String
  deriving DecidableEq

/-- The optimistic part of `CREATE_COMPONENT_CONNECTION`: allocate a
fresh edge object under the provisional id `tempId`, with status
`added` and the given endpoints. -/
def CREATE_COMPONENT_CONNECTION_optimistic (tempId : String)
    (src dst : Endpoint) (now : ActorAndTimestamp) (s : StoreState) :
    StoreState × Rollback :=
  let addr := s.nextAddr
  let e : Edge :=
    { id := tempId,
      fromNodeId := src.nodeId, fromSocketId := src.socketId,
      toNodeId := dst.nodeId, toSocketId := dst.socketId,
      isInvisible := none,
      changeStatus := some ChangeStatus.added,
      createdInfo := now,
      deletedInfo := none }
  ({ s with heap := (addr, e) :: s.heap,
            nextAddr := addr + 1,
            edgesById := setA s.edgesById tempId addr },
   Rollback.createConnRb tempId)

/-- The `onSuccess` handler of `CREATE_COMPONENT_CONNECTION`: when the
provisional entry still exists, re-key the same edge object under the
server-assigned canonical id and delete the provisional entry. -/
def CREATE_COMPONENT_CONNECTION_onSuccess (tempId canonId : String)
    (s : StoreState) : StoreState :=
  match lookupA s.edgesById tempId with
  | none => s
  | some addr =>
    { s with edgesById := eraseA (setA s.edgesById canonId addr) tempId }

/-! ## Reachability (`getDependentComponents` getter)

The source builds `connectedNodes[from] = [to, ...]` from the edge
values, seeds `connectedIds = [componentId]` and runs a recursive
`walkGraph` that skips already-collected ids and pushes then recurses
into the new ones.  The recursion is embedded with fuel; the theorems
prove that the chosen fuel always saturates, so the embedded function
computes exactly what the source computes. -/

/-- The adjacency derived from the edge values:
`connectedNodes[id]` is the list of `toNodeId` over edges whose
`fromNodeId` is `id`, in edge order. -/
def adjOf (edges : List Edge) (id : String) : List String :=
  (edges.filter (fun e => e.fromNodeId == id)).map Edge.toNodeId

/-- The recursive `walkGraph(id)` of the source: fold the
`nextIds?.forEach` body over the neighbours of `id`, skipping a
neighbour already collected and otherwise pushing it and recursing
into it.  The fuel decreases on each recursion into a new node. -/
def walkGraph (adj : String → List String) : Nat → String → List String →
    List String
  | 0, _, acc => acc
  | Nat.succ m, id, acc =>
    (adj id).foldl
      (fun acc2 nid =>
        if nid ∈ acc2 then acc2 else walkGraph adj m nid (acc2 ++ [nid]))
      acc

/-- The `getDependentComponents` getter, seeded with the root and run
with fuel that the saturation lemmas show is always sufficient. -/
def getDependentComponents (edges : List Edge) (componentId : String) :
    List String :=
  walkGraph (adjOf edges) (2 * edges.length + 2) componentId [componentId]

/-- All node ids mentioned by the edge set. -/
def edgeNodeSet (edges : List Edge) : Finset String :=
  edges.foldr (fun e s => insert e.fromNodeId (insert e.toNodeId s)) ∅

/-- Reachability along the `from → to` direction of the edge values:
the transitive closure starting at `root`, inclusive of `root`. -/
inductive Reach (edges : List Edge) (root : String) : String → Prop
  | refl : Reach edges root root
  | step {x : String} {e : Edge} : Reach edges root x → e ∈ edges →
      e.fromNodeId = x → Reach edges root e.toNodeId

/-! ## Bulk operations (`DELETE_COMPONENTS` / `RESTORE_COMPONENTS`)

The bulk actions run `async.eachSeries(componentIds, async id =>
await this.DELETE_COMPONENT(id))`: the awaited remote call of one
component resolves fully before the next iteration starts.  The
embedding records the remote-call lifecycle as a trace of start and
resolve events; sequential await composition concatenates the
fully-resolved trace of each iteration. -/

/-- Lifecycle events of remote calls issued by a bulk operation. -/
inductive RemoteEvent where
  | callStart (op : String) (componentId : String)
  | callResolve (op : String) (componentId : String)
  deriving DecidableEq

/-- The remote-call trace of one `DELETE_COMPONENT(componentId)`,
from issuing the request to its resolution. -/
def DELETE_COMPONENT_trace (componentId : String) : List RemoteEvent :=
  [RemoteEvent.callStart "diagram/delete_component" componentId,
   RemoteEvent.callResolve "diagram/delete_component" componentId]

/-- The remote-call trace of one `RESTORE_COMPONENT(componentId)`. -/
def RESTORE_COMPONENT_trace (componentId : String) : List RemoteEvent :=
  [RemoteEvent.callStart "diagram/restore_component" componentId,
   RemoteEvent.callResolve "diagram/restore_component" componentId]

/-- `async.eachSeries`: run the body on each item in list order, each
iteration fully resolved (its whole trace emitted) before the next
iteration begins. -/
def eachSeries {α : Type} (items : List α) (body : α → List RemoteEvent) :
    List RemoteEvent :=
  match items with
  | [] => []
  | x :: rest => body x ++ eachSeries rest body

/-- `DELETE_COMPONENTS(componentIds)`. -/
def DELETE_COMPONENTS (componentIds : List String) : List RemoteEvent :=
  eachSeries componentIds DELETE_COMPONENT_trace

/-- `RESTORE_COMPONENTS(componentIds)`. -/
def RESTORE_COMPONENTS (componentIds : List String) : List RemoteEvent :=
  eachSeries componentIds RESTORE_COMPONENT_trace

/-- Number of call starts in a trace. -/
def startCount (tr : List RemoteEvent) : Nat :=
  tr.countP (fun ev => match ev with
    | RemoteEvent.callStart _ _ => true
    | _ => false)

/-- Number of call resolutions in a trace. -/
def resolveCount (tr : List RemoteEvent) : Nat :=
  tr.countP (fun ev => match ev with
    | RemoteEvent.callResolve _ _ => true
    | _ => false)

/-- The component ids of the call starts of a trace, in order. -/
def startIds (tr : List RemoteEvent) : List String :=
  tr.filterMap (fun ev => match ev with
    | RemoteEvent.callStart _ cid => some cid
    | _ => none)

/-! ## Job-record creation (`status_update_create_v1`)

The migration defines a table `status_updates` and a PLPGSQL creation
procedure that builds the JSON `data` document with
`jsonb_build_object` and inserts exactly one row, returning it.  The
tenancy conversion `tenancy_json_to_columns_v1` lives in an earlier
migration; its output record is taken as the already-converted
input. -/

/-- The tenancy columns produced by `tenancy_json_to_columns_v1`. -/
structure TenancyRecord where
  tenancy_universal : Bool
  tenancy_billing_account_ids : List Int
  tenancy_organization_ids : List Int
  tenancy_workspace_ids : List Int
  deriving DecidableEq

/-- The JSON `data` document of a `status_updates` row. -/
structure StatusUpdateData where
  attribute_value_id : Int
  dependent_values_metadata : List (String × String)
  queued_dependent_value_ids : List Int
  running_dependent_value_ids : List Int
  completed_dependent_value_ids : List Int
  deriving DecidableEq

/-- A row of the `status_updates` table. -/
structure StatusUpdateRow where
  pk : Int
  tenancy : TenancyRecord
  data : StatusUpdateData
  deriving DecidableEq

/-- `status_update_create_v1(this_attribute_value_id, this_tenancy)`:
build the `data` document with the three dependent-value id lists
empty and the metadata map empty, insert one row, and return the
inserted row. -/
def status_update_create_v1 (this_attribute_value_id : Int)
    (this_tenancy : TenancyRecord) (table : List StatusUpdateRow)
    (nextPk : Int) : List StatusUpdateRow × StatusUpdateRow :=
  let this_data : StatusUpdateData :=
    { attribute_value_id := this_attribute_value_id,
      dependent_values_metadata := [],
      queued_dependent_value_ids := [],
      running_dependent_value_ids := [],
      completed_dependent_value_ids := [] }
  let this_new_row : StatusUpdateRow :=
    { pk := nextPk, tenancy := this_tenancy, data := this_data }
  (table ++ [this_new_row], this_new_row)

/-! ## Fixtures: concrete states used by counterexamples and witnesses -/

/-- The one step of the `forEach` body, named for the proofs. -/
def walkStep (adj : String → List String) (m : Nat) (acc2 : List String)
    (nid : String) : List String :=
  if nid ∈ acc2 then acc2 else walkGraph adj m nid (acc2 ++ [nid])

/-- The actor recorded by the optimistic mutations. -/
def youActor : ActorView := { kind := "user", label := "You" }

/-- A first timestamp. -/
def ts1 : ActorAndTimestamp := { actor := youActor, timestamp := "2023-05-01T00:00:00Z" }

/-- A second timestamp. -/
def ts2 : ActorAndTimestamp := { actor := youActor, timestamp := "2023-05-02T00:00:00Z" }

/-- A tombstoned edge: deleted, with `deletedInfo` populated. -/
def tombEdge : Edge :=
  { id := "e1", fromNodeId := "n1", fromSocketId := "s1", toNodeId := "n2",
    toSocketId := "s2", isInvisible := none,
    changeStatus := some ChangeStatus.deleted, createdInfo := ts1,
    deletedInfo := some ts2 }

/-- A store holding only the tombstoned edge `e1`. -/
def tombState : StoreState :=
  { heap := [(0, tombEdge)], nextAddr := 1, edgesById := [("e1", 0)],
    rawComponentsById := [], selectedEdgeId := none }

/-- Running `RESTORE_EDGE` on the tombstoned edge and then invoking the
rollback closure it returned. -/
def tombRestoreRolledBack : Except Unit StoreState :=
  (RESTORE_EDGE_optimistic "e1" tombState).bind
    (fun r => applyRollback r.2 r.1)

/-- The empty store. -/
def emptyStore : StoreState :=
  { heap := [], nextAddr := 0, edgesById := [], rawComponentsById := [],
    selectedEdgeId := none }

/-- An edge with status `added` (no prior committed state). -/
def addedEdge : Edge :=
  { id := "ea", fromNodeId := "n1", fromSocketId := "s1", toNodeId := "n2",
    toSocketId := "s2", isInvisible := none,
    changeStatus := some ChangeStatus.added, createdInfo := ts1,
    deletedInfo := none }

/-- An edge with status `unmodified`. -/
def unmodEdge : Edge :=
  { id := "eu", fromNodeId := "n2", fromSocketId := "s3", toNodeId := "n3",
    toSocketId := "s4", isInvisible := none,
    changeStatus := some ChangeStatus.unmodified, createdInfo := ts1,
    deletedInfo := none }

/-- A store holding the `added` edge `ea` and the `unmodified` edge
`eu`. -/
def twoEdgeState : StoreState :=
  { heap := [(0, addedEdge), (1, unmodEdge)], nextAddr := 2,
    edgesById := [("ea", 0), ("eu", 1)], rawComponentsById := [],
    selectedEdgeId := none }

/-- A plain edge between two nodes, for the reachability witnesses. -/
def plainEdge (i f t : String) : Edge :=
  { id := i, fromNodeId := f, fromSocketId := "s1", toNodeId := t,
    toSocketId := "s2", isInvisible := none,
    changeStatus := some ChangeStatus.unmodified, createdInfo := ts1,
    deletedInfo := none }

/-- The cyclic edge set n1 → n2 → n3 → n1 of the specification. -/
def cycleEdges : List Edge :=
  [plainEdge "e12" "n1" "n2", plainEdge "e23" "n2" "n3", plainEdge "e31" "n3" "n1"]

/-- The same edges in a different iteration order. -/
def cycleEdgesShuffled : List Edge :=
  [plainEdge "e23" "n2" "n3", plainEdge "e31" "n3" "n1", plainEdge "e12" "n1" "n2"]

/-- All node ids appearing in an edge list together with a root. -/
def rootNodeSet (edges : List Edge) (root : String) : Finset String :=
  insert root (edgeNodeSet edges)

/-- Projection of a mutation result to its state (none on a thrown
TypeError). -/
def okState : Except Unit StoreState → Option StoreState
  | .ok s => some s
  | .error _ => none

/-- The output the scheduler produces on `chainActionGraph` (the
objects are pushed after their `parents` arrays were spliced, so both
come out with empty parents). -/
def chainActionsOut : List ActionInstance :=
  [{ id := "p", actionPrototypeId := "pp", name := "p", componentId := "c1",
     parents := [] },
   { id := "q", actionPrototypeId := "pq", name := "q", componentId := "c2",
     parents := [] }]

/-! ## Association-list lemmas -/


theorem lookupA_setA_self {κ α : Type} [DecidableEq κ]
    (l : List (κ × α)) (k : κ) (v : α) : lookupA (setA l k v) k = some v := by
  induction l with
  | nil => simp [setA, lookupA]
  | cons kv rest ih =>
    obtain ⟨k1, w⟩ := kv
    by_cases h : k1 = k
    · simp [setA, h, lookupA]
    · simp [setA, h, lookupA, ih]

theorem lookupA_setA_ne {κ α : Type} [DecidableEq κ]
    (l : List (κ × α)) (k k2 : κ) (v : α) (hne : k2 ≠ k) :
    lookupA (setA l k v) k2 = lookupA l k2 := by
  have hne2 : ¬ (k = k2) := fun h => hne h.symm
  induction l with
  | nil => simp [setA, lookupA, hne2]
  | cons kv rest ih =>
    obtain ⟨k1, w⟩ := kv
    by_cases h : k1 = k
    · subst h
      simp [setA, lookupA, hne2]
    · simp [setA, h, lookupA, ih]

theorem lookupA_eraseA_self {κ α : Type} [DecidableEq κ]
    (l : List (κ × α)) (k : κ) : lookupA (eraseA l k) k = none := by
  induction l with
  | nil => simp [eraseA, lookupA]
  | cons kv rest ih =>
    obtain ⟨k1, w⟩ := kv
    by_cases h : k1 = k
    · simp [eraseA, h, ih]
    · simp [eraseA, h, lookupA, ih]

theorem lookupA_eraseA_ne {κ α : Type} [DecidableEq κ]
    (l : List (κ × α)) (k k2 : κ) (hne : k2 ≠ k) :
    lookupA (eraseA l k) k2 = lookupA l k2 := by
  have hne2 : ¬ (k = k2) := fun h => hne h.symm
  induction l with
  | nil => simp [eraseA]
  | cons kv rest ih =>
    obtain ⟨k1, w⟩ := kv
    by_cases h : k1 = k
    · subst h
      simp [eraseA, lookupA, hne2, ih]
    · simp [eraseA, h, lookupA, ih]

/-! ## Scheduler lemmas -/

theorem proposedActionsLoop_some_final {n : Nat} {g g2 : ActionGraph}
    {acc out : List ActionInstance}
    (h : proposedActionsLoop n g acc = some (out, g2)) : g2 = [] := by
  induction n generalizing g acc with
  | zero =>
    by_cases hg : g.isEmpty
    · have hgnil : g = [] := List.isEmpty_iff.mp hg
      subst hgnil
      simp only [proposedActionsLoop, List.isEmpty_nil, if_true,
        Option.some.injEq, Prod.mk.injEq] at h
      exact h.2.symm
    · simp only [proposedActionsLoop, if_neg hg] at h
      exact Option.noConfusion h
  | succ m ih =>
    by_cases hg : g.isEmpty
    · have hgnil : g = [] := List.isEmpty_iff.mp hg
      subst hgnil
      simp only [proposedActionsLoop, List.isEmpty_nil, if_true,
        Option.some.injEq, Prod.mk.injEq] at h
      exact h.2.symm
    · simp only [proposedActionsLoop, if_neg hg] at h
      exact ih h

/-- C1: the specification requires `linearize` to terminate in a
bounded number of steps on a cyclic action set and report
`CycleDetected`.  The source `proposedActions` getter has no such
check: on the cyclic set X(parents:[Y]), Y(parents:[X]) every
iteration of its `while` loop removes zero actions and leaves the
graph unchanged, so the loop never exits — for every fuel bound the
embedded loop fails to terminate, and no `CycleDetected` result
exists anywhere in the code. -/
theorem proposedActions_cycle_never_terminates :
    (∀ (n : Nat) (acc : List ActionInstance),
       proposedActionsLoop n cyclicActionGraph acc = none) ∧
    proposedActions cyclicActionGraph = none := by
  have hloop : ∀ (n : Nat) (acc : List ActionInstance),
      proposedActionsLoop n cyclicActionGraph acc = none := by
    intro n
    induction n with
    | zero => intro acc; rfl
    | succ m ih => intro acc; exact ih acc
  exact ⟨hloop, hloop _ _⟩

/-- C2: the specification claims that on every acyclic action set the
output of `linearize` preserves topological order.  The source strips
a removed predecessor with `parents.splice(index)`, which truncates
the whole tail of the parents array; on the acyclic set a,
b(parents:[a]), c(parents:[b]), d(parents:[a, c]) (witnessed acyclic
by the topological order [a, b, c, d]) the getter outputs
[a, b, d, c], placing d before its parent c. -/
theorem proposedActions_splice_violates_topo_order :
    isTopoOrder spliceActionGraph ["a", "b", "c", "d"] = true ∧
    (proposedActions spliceActionGraph).map (fun r => r.1.map ActionInstance.id)
      = some ["a", "b", "d", "c"] ∧
    isTopoOrder spliceActionGraph ["a", "b", "d", "c"] = false := by decide

/-- C10: computing `proposedActions` consumes its input in place:
whenever the loop terminates, the shared action record it was handed
ends up empty, a second evaluation over the consumed graph yields no
actions, and the parents update truncates the list from the position
of the removed predecessor onward. -/
theorem proposedActions_consumes_graph (g : ActionGraph)
    (out : List ActionInstance) (g2 : ActionGraph)
    (h : proposedActions g = some (out, g2)) :
    g2 = [] ∧ proposedActions g2 = some ([], []) ∧
    (∀ (removeId : String) (ps : List String) (i : Nat),
       ps.findIdx? (fun p => p == removeId) = some i →
       stripParents removeId ps = ps.take i) := by
  have hg2 : g2 = [] := proposedActionsLoop_some_final h
  subst hg2
  refine ⟨rfl, rfl, ?_⟩
  intro removeId ps i hfind
  simp [stripParents, hfind]

/-- Witness for C10 at the concrete chain p, q(parents:[p]). -/
theorem proposedActions_consumes_graph_witness :
    proposedActions chainActionGraph = some (chainActionsOut, []) ∧
    proposedActions ([] : ActionGraph) = some ([], []) :=
  ⟨by decide,
   (proposedActions_consumes_graph chainActionGraph chainActionsOut []
     (by decide)).2.1⟩

/-- C3: the specification claims that invoking the recorded inverse
closure restores the Graph Store byte-for-byte, and in particular
that rolling back an edge restore brings back the edge's
`deletedInfo` and prior `changeStatus`.  The `RESTORE_EDGE` closure
captures `originalEdge` as a reference to the very object the
mutation then edits in place, so invoking it re-assigns the already
mutated object: on a tombstoned edge the rolled-back store still
shows `changeStatus` `unmodified` and no `deletedInfo`, and differs
from the pre-mutation store. -/
theorem restore_edge_rollback_not_byte_for_byte :
    (okState tombRestoreRolledBack).map (fun s2 => edgeAt s2 "e1") =
      some (some { tombEdge with changeStatus := some ChangeStatus.unmodified,
                                 deletedInfo := none }) ∧
    (okState tombRestoreRolledBack).map (fun s2 => edgeAt s2 "e1") ≠
      some (some tombEdge) ∧
    okState tombRestoreRolledBack ≠ some tombState := by decide

/-- C7: the specification requires rollback closures to be idempotent
no-ops when the entity they target no longer exists.  The closures
returned by `DELETE_COMPONENT` and by the tombstone branch of
`DELETE_EDGE` read a field of the missing entry without a guard, so
on a store from which the entity is gone they throw a TypeError
instead of doing nothing. -/
theorem rollback_on_missing_entity_throws :
    applyRollback (Rollback.deleteComponentRb "c1" ChangeStatus.unmodified)
      emptyStore = Except.error () ∧
    applyRollback (Rollback.deleteEdgeTombRb "e1" (some ChangeStatus.unmodified))
      emptyStore = Except.error () :=
  ⟨rfl, rfl⟩

/-- C9: `status_update_create_v1` inserts exactly one row, whose JSON
data holds the given `attribute_value_id`, an empty
`dependent_values_metadata` map, and the three dependent-value id
lists all empty, with the tenant scope recorded on the row; the
inserted row is also the returned object. -/
theorem status_update_create_v1_one_row (avId : Int)
    (tenancy : TenancyRecord) (table : List StatusUpdateRow) (pk : Int) :
    (status_update_create_v1 avId tenancy table pk).1 =
      table ++ [(status_update_create_v1 avId tenancy table pk).2] ∧
    (status_update_create_v1 avId tenancy table pk).1.length =
      table.length + 1 ∧
    ((status_update_create_v1 avId tenancy table pk).2).data =
      { attribute_value_id := avId, dependent_values_metadata := [],
        queued_dependent_value_ids := [], running_dependent_value_ids := [],
        completed_dependent_value_ids := [] } ∧
    ((status_update_create_v1 avId tenancy table pk).2).tenancy = tenancy := by
  simp [status_update_create_v1]

theorem lookupA_cons_self {κ α : Type} [DecidableEq κ]
    (l : List (κ × α)) (k : κ) (v : α) : lookupA ((k, v) :: l) k = some v := by
  simp [lookupA]

/-- C5: soft-delete semantics of edges.  Deleting an edge whose
`changeStatus` is `added` removes it from the edge map entirely;
deleting an edge with any other status keeps it, sets `changeStatus`
to `deleted` and populates `deletedInfo` with the acting user and a
timestamp; a subsequent restore of that edge clears `deletedInfo` and
sets `changeStatus` back to `unmodified`. -/
theorem delete_restore_edge_soft_delete (s : StoreState) (idA idU : String)
    (addrA addrU : Addr) (eA eU : Edge) (now : ActorAndTimestamp)
    (hA : lookupA s.edgesById idA = some addrA)
    (hA2 : lookupA s.heap addrA = some eA)
    (hAst : eA.changeStatus = some ChangeStatus.added)
    (hU : lookupA s.edgesById idU = some addrU)
    (hU2 : lookupA s.heap addrU = some eU)
    (hUst : ¬ eU.changeStatus = some ChangeStatus.added) :
    (DELETE_EDGE_optimistic idA now s).map
        (fun r => lookupA r.1.edgesById idA) = Except.ok none ∧
    (DELETE_EDGE_optimistic idU now s).map (fun r => edgeAt r.1 idU) =
      Except.ok (some { eU with changeStatus := some ChangeStatus.deleted,
                                deletedInfo := some now }) ∧
    ((DELETE_EDGE_optimistic idU now s).bind
        (fun r => RESTORE_EDGE_optimistic idU r.1)).map
        (fun r => edgeAt r.1 idU) =
      Except.ok (some { eU with changeStatus := some ChangeStatus.unmodified,
                                deletedInfo := none }) := by
  refine ⟨?_, ?_, ?_⟩
  · simp [DELETE_EDGE_optimistic, hA, hA2, hAst, Except.map,
      lookupA_eraseA_self]
  · simp [DELETE_EDGE_optimistic, hU, hU2, hUst, Except.map, edgeAt,
      lookupA_setA_self]
  · simp [DELETE_EDGE_optimistic, RESTORE_EDGE_optimistic, hU, hU2, hUst,
      Except.map, Except.bind, edgeAt, lookupA_setA_self]

/-- Witness for C5 on a store holding an `added` edge `ea` and an
`unmodified` edge `eu`. -/
theorem delete_restore_edge_soft_delete_witness :
    (DELETE_EDGE_optimistic "ea" ts2 twoEdgeState).map
        (fun r => lookupA r.1.edgesById "ea") = Except.ok none ∧
    (DELETE_EDGE_optimistic "eu" ts2 twoEdgeState).map
        (fun r => edgeAt r.1 "eu") =
      Except.ok (some { unmodEdge with changeStatus := some ChangeStatus.deleted,
                                       deletedInfo := some ts2 }) ∧
    ((DELETE_EDGE_optimistic "eu" ts2 twoEdgeState).bind
        (fun r => RESTORE_EDGE_optimistic "eu" r.1)).map
        (fun r => edgeAt r.1 "eu") =
      Except.ok (some { unmodEdge with
                          changeStatus := some ChangeStatus.unmodified,
                          deletedInfo := none }) :=
  delete_restore_edge_soft_delete twoEdgeState "ea" "eu" 0 1 addedEdge
    unmodEdge ts2 rfl rfl rfl rfl rfl (by decide)

/-- C6: after the optimistic creation of a connection under a
provisional id and the success handler applying the server-assigned
canonical id, the edge map holds under the canonical id the very edge
object that was under the provisional id — in particular all four
endpoint fields are identical to the provisional edge's — and no
entry under the provisional id remains. -/
theorem create_connection_canonical_rekey (s s1 s2 : StoreState)
    (rb : Rollback) (src dst : Endpoint) (tempId canonId : String)
    (now : ActorAndTimestamp) (hne : canonId ≠ tempId)
    (h1 : CREATE_COMPONENT_CONNECTION_optimistic tempId src dst now s = (s1, rb))
    (h2 : CREATE_COMPONENT_CONNECTION_onSuccess tempId canonId s1 = s2) :
    edgeAt s2 canonId = edgeAt s1 tempId ∧
    (edgeAt s2 canonId).map Edge.fromNodeId = some src.nodeId ∧
    (edgeAt s2 canonId).map Edge.fromSocketId = some src.socketId ∧
    (edgeAt s2 canonId).map Edge.toNodeId = some dst.nodeId ∧
    (edgeAt s2 canonId).map Edge.toSocketId = some dst.socketId ∧
    lookupA s2.edgesById tempId = none := by
  have h1s : s1 = (CREATE_COMPONENT_CONNECTION_optimistic tempId src dst now s).1 := by
    rw [h1]
  subst h2
  subst h1s
  simp only [CREATE_COMPONENT_CONNECTION_optimistic,
    CREATE_COMPONENT_CONNECTION_onSuccess, lookupA_setA_self, edgeAt,
    lookupA_eraseA_ne _ _ _ hne, lookupA_cons_self]
  simp [lookupA_setA_self, lookupA_eraseA_self, lookupA_cons_self]

/-- Witness for C6: provisional id temp-edge-1 re-keyed to the server
id edge-42 on the empty store. -/
theorem create_connection_canonical_rekey_witness :
    (edgeAt (CREATE_COMPONENT_CONNECTION_onSuccess "temp-edge-1" "edge-42"
        (CREATE_COMPONENT_CONNECTION_optimistic "temp-edge-1"
          { nodeId := "n1", socketId := "s1" }
          { nodeId := "n2", socketId := "s2" } ts1 emptyStore).1)
        "edge-42").map Edge.fromNodeId = some "n1" ∧
    lookupA (CREATE_COMPONENT_CONNECTION_onSuccess "temp-edge-1" "edge-42"
        (CREATE_COMPONENT_CONNECTION_optimistic "temp-edge-1"
          { nodeId := "n1", socketId := "s1" }
          { nodeId := "n2", socketId := "s2" } ts1 emptyStore).1).edgesById
      "temp-edge-1" = none :=
  have h := create_connection_canonical_rekey emptyStore _ _ _
    { nodeId := "n1", socketId := "s1" } { nodeId := "n2", socketId := "s2" }
    "temp-edge-1" "edge-42" ts1 (by decide) rfl rfl
  ⟨h.2.1, h.2.2.2.2.2⟩

/-! ## Reachability lemmas -/

theorem walkStep_pos (adj : String → List String) (n : Nat)
    (acc : List String) (nid : String) (h : nid ∈ acc) :
    walkStep adj n acc nid = acc := if_pos h

theorem walkStep_neg (adj : String → List String) (n : Nat)
    (acc : List String) (nid : String) (h : ¬ nid ∈ acc) :
    walkStep adj n acc nid = walkGraph adj n nid (acc ++ [nid]) := if_neg h

theorem walkGraph_succ (adj : String → List String) (m : Nat) (id : String)
    (acc : List String) :
    walkGraph adj (m + 1) id acc = (adj id).foldl (walkStep adj m) acc := rfl

theorem walkGraph_zero (adj : String → List String) (id : String)
    (acc : List String) : walkGraph adj 0 id acc = acc := rfl

theorem walk_mono (adj : String → List String) :
    ∀ n : Nat,
      (∀ (id : String) (acc : List String) (x : String), x ∈ acc →
         x ∈ walkGraph adj n id acc) ∧
      (∀ (l acc : List String) (x : String), x ∈ acc →
         x ∈ l.foldl (walkStep adj n) acc) := by
  intro n
  induction n with
  | zero =>
    have hL : ∀ (l acc : List String) (x : String), x ∈ acc →
        x ∈ l.foldl (walkStep adj 0) acc := by
      intro l
      induction l with
      | nil => intro acc x hx; simpa using hx
      | cons nid rest ih =>
        intro acc x hx
        rw [List.foldl_cons]
        by_cases hmem : nid ∈ acc
        · rw [walkStep_pos adj 0 acc nid hmem]
          exact ih acc x hx
        · rw [walkStep_neg adj 0 acc nid hmem, walkGraph_zero]
          exact ih (acc ++ [nid]) x (List.mem_append_left _ hx)
    exact ⟨fun id acc x hx => by simpa [walkGraph_zero] using hx, hL⟩
  | succ m ihm =>
    have hG : ∀ (id : String) (acc : List String) (x : String), x ∈ acc →
        x ∈ walkGraph adj (m + 1) id acc := by
      intro id acc x hx
      rw [walkGraph_succ]
      exact ihm.2 (adj id) acc x hx
    refine ⟨hG, ?_⟩
    intro l
    induction l with
    | nil => intro acc x hx; simpa using hx
    | cons nid rest ih =>
      intro acc x hx
      rw [List.foldl_cons]
      by_cases hmem : nid ∈ acc
      · rw [walkStep_pos adj (m + 1) acc nid hmem]
        exact ih acc x hx
      · rw [walkStep_neg adj (m + 1) acc nid hmem]
        exact ih _ x (hG nid (acc ++ [nid]) x (List.mem_append_left _ hx))

theorem walk_saturates (adj : String → List String) (V : Finset String)
    (hadj : ∀ x y, y ∈ adj x → y ∈ V) :
    ∀ n : Nat,
      (∀ (id : String) (acc : List String),
         (V \ acc.toFinset).card + 2 ≤ n →
         (∀ y ∈ adj id, y ∈ walkGraph adj n id acc) ∧
         (∀ x ∈ walkGraph adj n id acc,
            x ∈ acc ∨ ∀ y ∈ adj x, y ∈ walkGraph adj n id acc) ∧
         (acc.Nodup → (walkGraph adj n id acc).Nodup)) ∧
      (∀ (l acc : List String),
         (V \ acc.toFinset).card + 1 ≤ n → (∀ y ∈ l, y ∈ V) →
         (∀ y ∈ l, y ∈ l.foldl (walkStep adj n) acc) ∧
         (∀ x ∈ l.foldl (walkStep adj n) acc,
            x ∈ acc ∨ ∀ y ∈ adj x, y ∈ l.foldl (walkStep adj n) acc) ∧
         (acc.Nodup → (l.foldl (walkStep adj n) acc).Nodup)) := by
  intro n
  induction n with
  | zero =>
    constructor
    · intro id acc hcard
      exact absurd hcard (by omega)
    · intro l acc hcard hl
      exact absurd hcard (by omega)
  | succ n ihm =>
    have hG : ∀ (id : String) (acc : List String),
        (V \ acc.toFinset).card + 2 ≤ n + 1 →
        (∀ y ∈ adj id, y ∈ walkGraph adj (n + 1) id acc) ∧
        (∀ x ∈ walkGraph adj (n + 1) id acc,
           x ∈ acc ∨ ∀ y ∈ adj x, y ∈ walkGraph adj (n + 1) id acc) ∧
        (acc.Nodup → (walkGraph adj (n + 1) id acc).Nodup) := by
      intro id acc hcard
      simp only [walkGraph_succ]
      exact ihm.2 (adj id) acc (by omega) (fun y hy => hadj id y hy)
    refine ⟨hG, ?_⟩
    intro l
    induction l with
    | nil =>
      intro acc hcard hl
      refine ⟨by simp, ?_, fun h => by simpa using h⟩
      intro x hx
      exact Or.inl (by simpa using hx)
    | cons nid rest ih =>
      intro acc hcard hl
      by_cases hmem : nid ∈ acc
      · simp only [List.foldl_cons, walkStep_pos adj (n + 1) acc nid hmem]
        have hrest := ih acc hcard (fun y hy => hl y (List.mem_cons_of_mem _ hy))
        refine ⟨?_, hrest.2.1, hrest.2.2⟩
        intro y hy
        rcases List.mem_cons.mp hy with rfl | hy2
        · exact (walk_mono adj (n + 1)).2 rest acc y hmem
        · exact hrest.1 y hy2
      · simp only [List.foldl_cons, walkStep_neg adj (n + 1) acc nid hmem]
        have hnidV : nid ∈ V := hl nid (List.mem_cons_self nid rest)
        have haccT : (acc ++ [nid]).toFinset = insert nid acc.toFinset := by
          ext z
          simp [or_comm]
        have hnidSd : nid ∈ V \ acc.toFinset :=
          Finset.mem_sdiff.mpr ⟨hnidV, fun hc => hmem (List.mem_toFinset.mp hc)⟩
        have hpos : 1 ≤ (V \ acc.toFinset).card :=
          Finset.card_pos.mpr ⟨nid, hnidSd⟩
        have hcard2 : (V \ (acc ++ [nid]).toFinset).card + 2 ≤ n + 1 := by
          rw [haccT, Finset.sdiff_insert, Finset.card_erase_of_mem hnidSd]
          omega
        have hGnid := hG nid (acc ++ [nid]) hcard2
        have hmono1 : ∀ x ∈ acc ++ [nid],
            x ∈ walkGraph adj (n + 1) nid (acc ++ [nid]) :=
          fun x hx => (walk_mono adj (n + 1)).1 nid (acc ++ [nid]) x hx
        have hsub1 :
            (V \ (walkGraph adj (n + 1) nid (acc ++ [nid])).toFinset).card + 1
              ≤ n + 1 := by
          have hvu : (acc ++ [nid]).toFinset ⊆
              (walkGraph adj (n + 1) nid (acc ++ [nid])).toFinset :=
            fun x hx =>
              List.mem_toFinset.mpr (hmono1 x (List.mem_toFinset.mp hx))
          have hle := Finset.card_le_card
            (Finset.sdiff_subset_sdiff (Finset.Subset.refl V) hvu)
          omega
        have hrest := ih (walkGraph adj (n + 1) nid (acc ++ [nid])) hsub1
          (fun y hy => hl y (List.mem_cons_of_mem _ hy))
        have hmono2 : ∀ x ∈ walkGraph adj (n + 1) nid (acc ++ [nid]),
            x ∈ rest.foldl (walkStep adj (n + 1))
              (walkGraph adj (n + 1) nid (acc ++ [nid])) :=
          fun x hx => (walk_mono adj (n + 1)).2 rest _ x hx
        refine ⟨?_, ?_, ?_⟩
        · intro y hy
          rcases List.mem_cons.mp hy with rfl | hy2
          · exact hmono2 y
              (hmono1 y (List.mem_append_right _ (List.mem_singleton_self y)))
          · exact hrest.1 y hy2
        · intro x hx
          rcases hrest.2.1 x hx with hx1 | hcl
          · rcases hGnid.2.1 x hx1 with hx2 | hcl2
            · rcases List.mem_append.mp hx2 with hx3 | hx4
              · exact Or.inl hx3
              · have hxnid : x = nid := by simpa using hx4
                subst hxnid
                exact Or.inr (fun y hy => hmono2 y (hGnid.1 y hy))
            · exact Or.inr (fun y hy => hmono2 y (hcl2 y hy))
          · exact Or.inr hcl
        · intro hnd
          apply hrest.2.2
          apply hGnid.2.2
          exact List.nodup_append.mpr
            ⟨hnd, List.nodup_singleton nid,
             by simpa [List.disjoint_singleton] using hmem⟩

theorem walk_sound (adj : String → List String) (R : String → Prop)
    (hstep : ∀ x y, R x → y ∈ adj x → R y) :
    ∀ n : Nat,
      (∀ (id : String) (acc : List String), R id → (∀ a ∈ acc, R a) →
         ∀ x ∈ walkGraph adj n id acc, R x) ∧
      (∀ (l acc : List String), (∀ y ∈ l, R y) → (∀ a ∈ acc, R a) →
         ∀ x ∈ l.foldl (walkStep adj n) acc, R x) := by
  intro n
  induction n with
  | zero =>
    have hL : ∀ (l acc : List String), (∀ y ∈ l, R y) → (∀ a ∈ acc, R a) →
        ∀ x ∈ l.foldl (walkStep adj 0) acc, R x := by
      intro l
      induction l with
      | nil => intro acc _ hacc x hx; exact hacc x (by simpa using hx)
      | cons nid rest ih =>
        intro acc hl hacc x hx
        rw [List.foldl_cons] at hx
        by_cases hmem : nid ∈ acc
        · rw [walkStep_pos adj 0 acc nid hmem] at hx
          exact ih acc (fun y hy => hl y (List.mem_cons_of_mem _ hy)) hacc x hx
        · rw [walkStep_neg adj 0 acc nid hmem, walkGraph_zero] at hx
          refine ih (acc ++ [nid])
            (fun y hy => hl y (List.mem_cons_of_mem _ hy)) ?_ x hx
          intro a ha
          rcases List.mem_append.mp ha with h1 | h2
          · exact hacc a h1
          · have : a = nid := by simpa using h2
            subst this
            exact hl a (List.mem_cons_self a rest)
    refine ⟨?_, hL⟩
    intro id acc _ hacc x hx
    exact hacc x (by simpa [walkGraph_zero] using hx)
  | succ n ihm =>
    have hG : ∀ (id : String) (acc : List String), R id → (∀ a ∈ acc, R a) →
        ∀ x ∈ walkGraph adj (n + 1) id acc, R x := by
      intro id acc hid hacc x hx
      rw [walkGraph_succ] at hx
      exact ihm.2 (adj id) acc (fun y hy => hstep id y hid hy) hacc x hx
    refine ⟨hG, ?_⟩
    intro l
    induction l with
    | nil => intro acc _ hacc x hx; exact hacc x (by simpa using hx)
    | cons nid rest ih =>
      intro acc hl hacc x hx
      rw [List.foldl_cons] at hx
      by_cases hmem : nid ∈ acc
      · rw [walkStep_pos adj (n + 1) acc nid hmem] at hx
        exact ih acc (fun y hy => hl y (List.mem_cons_of_mem _ hy)) hacc x hx
      · rw [walkStep_neg adj (n + 1) acc nid hmem] at hx
        refine ih (walkGraph adj (n + 1) nid (acc ++ [nid]))
          (fun y hy => hl y (List.mem_cons_of_mem _ hy)) ?_ x hx
        refine hG nid (acc ++ [nid]) (hl nid (List.mem_cons_self nid rest)) ?_
        intro a ha
        rcases List.mem_append.mp ha with h1 | h2
        · exact hacc a h1
        · have : a = nid := by simpa using h2
          subst this
          exact hl a (List.mem_cons_self a rest)

theorem mem_edgeNodeSet_from {edges : List Edge} {e : Edge} (he : e ∈ edges) :
    e.fromNodeId ∈ edgeNodeSet edges := by
  induction edges with
  | nil => cases he
  | cons e2 rest ih =>
    rcases List.mem_cons.mp he with rfl | h2
    · simp [edgeNodeSet]
    · simp only [edgeNodeSet, List.foldr_cons, Finset.mem_insert]
      exact Or.inr (Or.inr (ih h2))

theorem mem_edgeNodeSet_to {edges : List Edge} {e : Edge} (he : e ∈ edges) :
    e.toNodeId ∈ edgeNodeSet edges := by
  induction edges with
  | nil => cases he
  | cons e2 rest ih =>
    rcases List.mem_cons.mp he with rfl | h2
    · simp [edgeNodeSet]
    · simp only [edgeNodeSet, List.foldr_cons, Finset.mem_insert]
      exact Or.inr (Or.inr (ih h2))

theorem edgeNodeSet_card (edges : List Edge) :
    (edgeNodeSet edges).card ≤ 2 * edges.length := by
  induction edges with
  | nil => simp [edgeNodeSet]
  | cons e rest ih =>
    have h1 := Finset.card_insert_le e.fromNodeId
      (insert e.toNodeId (edgeNodeSet rest))
    have h2 := Finset.card_insert_le e.toNodeId (edgeNodeSet rest)
    simp only [edgeNodeSet, List.foldr_cons, List.length_cons]
    simp only [edgeNodeSet] at h1 h2 ih
    omega

theorem mem_adjOf {edges : List Edge} {x y : String} :
    y ∈ adjOf edges x ↔ ∃ e ∈ edges, e.fromNodeId = x ∧ e.toNodeId = y := by
  simp only [adjOf, List.mem_map, List.mem_filter, beq_iff_eq]
  constructor
  · rintro ⟨e, ⟨he, hf⟩, ht⟩
    exact ⟨e, he, hf, ht⟩
  · rintro ⟨e, he, hf, ht⟩
    exact ⟨e, ⟨he, hf⟩, ht⟩

theorem adjOf_subset_nodeSet (edges : List Edge) (root x y : String)
    (hy : y ∈ adjOf edges x) : y ∈ rootNodeSet edges root := by
  rcases mem_adjOf.mp hy with ⟨e, he, _, rfl⟩
  exact Finset.mem_insert_of_mem (mem_edgeNodeSet_to he)

theorem reach_of_perm {edges edges2 : List Edge} {root x : String}
    (hp : edges2.Perm edges) (h : Reach edges2 root x) : Reach edges root x := by
  induction h with
  | refl => exact Reach.refl
  | step hr he hf ih =>
    exact Reach.step ih (hp.mem_iff.mp he) hf

/-- C4: for every edge set (cyclic ones included) and every root, the
`getDependentComponents` query returns exactly the transitive closure
of the edges' from-to relation starting at the root, inclusive of the
root, with each reachable id exactly once (the result has no
duplicates), and its result set is invariant under permutations of
the edge list.  The embedded recursion is total, so the query
terminates on cyclic inputs. -/
theorem getDependentComponents_reachability (edges : List Edge) (root : String) :
    (∀ x, x ∈ getDependentComponents edges root ↔ Reach edges root x) ∧
    (getDependentComponents edges root).Nodup ∧
    (∀ edges2, edges2.Perm edges →
       ∀ x, x ∈ getDependentComponents edges2 root ↔
            x ∈ getDependentComponents edges root) := by
  have main : ∀ es : List Edge,
      (∀ x, x ∈ getDependentComponents es root ↔ Reach es root x) ∧
      (getDependentComponents es root).Nodup := by
    intro es
    have hadj : ∀ x y, y ∈ adjOf es x → y ∈ rootNodeSet es root :=
      fun x y hy => adjOf_subset_nodeSet es root x y hy
    have hN : (rootNodeSet es root \ ([root] : List String).toFinset).card + 2
        ≤ 2 * es.length + 2 := by
      have hss : rootNodeSet es root \ ([root] : List String).toFinset ⊆
          edgeNodeSet es := by
        intro z hz
        rcases Finset.mem_sdiff.mp hz with ⟨hzV, hznr⟩
        rcases Finset.mem_insert.mp hzV with h | h
        · exact absurd (by simp [h]) hznr
        · exact h
      have h2 := Finset.card_le_card hss
      have h3 := edgeNodeSet_card es
      omega
    obtain ⟨hstar, hclosed, hnodup⟩ :=
      (walk_saturates (adjOf es) (rootNodeSet es root) hadj
        (2 * es.length + 2)).1 root [root] hN
    have hroot : root ∈ getDependentComponents es root :=
      (walk_mono (adjOf es) (2 * es.length + 2)).1 root [root] root
        (List.mem_singleton_self root)
    have hcl : ∀ x ∈ getDependentComponents es root,
        ∀ y ∈ adjOf es x, y ∈ getDependentComponents es root := by
      intro x hx y hy
      rcases hclosed x hx with h1 | h2
      · have hxr : x = root := by simpa using h1
        subst hxr
        exact hstar y hy
      · exact h2 y hy
    have hcomplete : ∀ x, Reach es root x →
        x ∈ getDependentComponents es root := by
      intro x h
      induction h with
      | refl => exact hroot
      | step hr he hf ih =>
        exact hcl _ ih _ (mem_adjOf.mpr ⟨_, he, hf, rfl⟩)
    have hsound : ∀ x ∈ getDependentComponents es root, Reach es root x := by
      intro x hx
      refine (walk_sound (adjOf es) (Reach es root) ?_ (2 * es.length + 2)).1
        root [root] Reach.refl ?_ x hx
      · intro a b ha hb
        rcases mem_adjOf.mp hb with ⟨e, he, hf, rfl⟩
        exact Reach.step ha he hf
      · intro a ha
        have har : a = root := by simpa using ha
        subst har
        exact Reach.refl
    exact ⟨fun x => ⟨hsound x, hcomplete x⟩, hnodup (List.nodup_singleton root)⟩
  refine ⟨(main edges).1, (main edges).2, ?_⟩
  intro edges2 hp x
  rw [(main edges2).1 x, (main edges).1 x]
  exact ⟨reach_of_perm hp, reach_of_perm hp.symm⟩

/-- Witness for C4 on the cyclic edge set n1 → n2 → n3 → n1 and a
permutation of it. -/
theorem getDependentComponents_reachability_witness :
    ("n2" ∈ getDependentComponents cycleEdgesShuffled "n1" ↔
     "n2" ∈ getDependentComponents cycleEdges "n1") ∧
    getDependentComponents cycleEdges "n1" = ["n1", "n2", "n3"] :=
  ⟨(getDependentComponents_reachability cycleEdges "n1").2.2 cycleEdgesShuffled
     (by decide) "n2", by decide⟩

/-! ## Bulk-operation trace lemmas -/

theorem startCount_cons_start (op cid : String) (t : List RemoteEvent) :
    startCount (RemoteEvent.callStart op cid :: t) = startCount t + 1 := by
  simp [startCount, List.countP_cons]

theorem startCount_cons_resolve (op cid : String) (t : List RemoteEvent) :
    startCount (RemoteEvent.callResolve op cid :: t) = startCount t := by
  simp [startCount, List.countP_cons]

theorem resolveCount_cons_start (op cid : String) (t : List RemoteEvent) :
    resolveCount (RemoteEvent.callStart op cid :: t) = resolveCount t := by
  simp [resolveCount, List.countP_cons]

theorem resolveCount_cons_resolve (op cid : String) (t : List RemoteEvent) :
    resolveCount (RemoteEvent.callResolve op cid :: t) = resolveCount t + 1 := by
  simp [resolveCount, List.countP_cons]

theorem eachSeries_pair_sequential (op : String)
    (body : String → List RemoteEvent)
    (hbody : ∀ c, body c =
      [RemoteEvent.callStart op c, RemoteEvent.callResolve op c]) :
    ∀ ids : List String,
      (∀ (p rest : List RemoteEvent) (o2 cid : String),
         eachSeries ids body = p ++ RemoteEvent.callStart o2 cid :: rest →
         startCount p = resolveCount p) ∧
      startIds (eachSeries ids body) = ids ∧
      (∀ p q : List RemoteEvent, eachSeries ids body = p ++ q →
         startCount p ≤ resolveCount p + 1) := by
  intro ids
  induction ids with
  | nil =>
    refine ⟨?_, rfl, ?_⟩
    · intro p rest o2 cid h
      exact absurd h (by cases p <;> simp [eachSeries])
    · intro p q h
      have hp : p = [] := by
        cases p with
        | nil => rfl
        | cons a as => simp [eachSeries] at h
      subst hp
      simp [startCount, resolveCount]
  | cons c ids ih =>
    have htr : eachSeries (c :: ids) body =
        RemoteEvent.callStart op c :: RemoteEvent.callResolve op c ::
          eachSeries ids body := by
      simp [eachSeries, hbody c]
    refine ⟨?_, ?_, ?_⟩
    · intro p rest o2 cid h
      rw [htr] at h
      cases p with
      | nil => rfl
      | cons e1 p1 =>
        rw [List.cons_append] at h
        injection h with he1 h1
        cases p1 with
        | nil =>
          rw [List.nil_append] at h1
          injection h1 with he2 _
          exact RemoteEvent.noConfusion he2
        | cons e2 p2 =>
          rw [List.cons_append] at h1
          injection h1 with he2 h2
          have hbal := ih.1 p2 rest o2 cid h2
          subst he1
          subst he2
          rw [startCount_cons_start, startCount_cons_resolve,
            resolveCount_cons_start, resolveCount_cons_resolve, hbal]
    · rw [htr]
      simp only [startIds, List.filterMap_cons]
      simpa [startIds] using ih.2.1
    · intro p q h
      rw [htr] at h
      cases p with
      | nil => simp [startCount, resolveCount]
      | cons e1 p1 =>
        rw [List.cons_append] at h
        injection h with he1 h1
        subst he1
        cases p1 with
        | nil =>
          simp [startCount, resolveCount, List.countP_cons]
        | cons e2 p2 =>
          rw [List.cons_append] at h1
          injection h1 with he2 h2
          subst he2
          have hle := ih.2.2 p2 q h2
          rw [startCount_cons_start, startCount_cons_resolve,
            resolveCount_cons_start, resolveCount_cons_resolve]
          omega

/-- C8: the bulk delete and restore operations issue their
per-component remote calls strictly sequentially in list order: in
the emitted remote-call trace the starts appear exactly in input
order, every call start occurs at a point where all previously
started calls have resolved, and at every trace prefix at most one
call is outstanding. -/
theorem bulk_components_sequential (componentIds : List String) :
    ((∀ (p rest : List RemoteEvent) (o2 cid : String),
        DELETE_COMPONENTS componentIds =
          p ++ RemoteEvent.callStart o2 cid :: rest →
        startCount p = resolveCount p) ∧
     startIds (DELETE_COMPONENTS componentIds) = componentIds ∧
     (∀ p q : List RemoteEvent, DELETE_COMPONENTS componentIds = p ++ q →
        startCount p ≤ resolveCount p + 1)) ∧
    ((∀ (p rest : List RemoteEvent) (o2 cid : String),
        RESTORE_COMPONENTS componentIds =
          p ++ RemoteEvent.callStart o2 cid :: rest →
        startCount p = resolveCount p) ∧
     startIds (RESTORE_COMPONENTS componentIds) = componentIds ∧
     (∀ p q : List RemoteEvent, RESTORE_COMPONENTS componentIds = p ++ q →
        startCount p ≤ resolveCount p + 1)) :=
  ⟨eachSeries_pair_sequential "diagram/delete_component"
     DELETE_COMPONENT_trace (fun _ => rfl) componentIds,
   eachSeries_pair_sequential "diagram/restore_component"
     RESTORE_COMPONENT_trace (fun _ => rfl) componentIds⟩

/-- Witness for C8 on the two-component bulk delete. -/
theorem bulk_components_sequential_witness :
    startIds (DELETE_COMPONENTS ["c1", "c2"]) = ["c1", "c2"] ∧
    startCount [RemoteEvent.callStart "diagram/delete_component" "c1",
                RemoteEvent.callResolve "diagram/delete_component" "c1"] =
      resolveCount [RemoteEvent.callStart "diagram/delete_component" "c1",
                    RemoteEvent.callResolve "diagram/delete_component" "c1"] :=
  ⟨(bulk_components_sequential ["c1", "c2"]).1.2.1,
   (bulk_components_sequential ["c1", "c2"]).1.1
     [RemoteEvent.callStart "diagram/delete_component" "c1",
      RemoteEvent.callResolve "diagram/delete_component" "c1"]
     [RemoteEvent.callResolve "diagram/delete_component" "c2"]
     "diagram/delete_component" "c2" (by decide)⟩
